import Mathlib

/-!
Verification of the worktree registry and hook orchestration subsystem of
the `wtree` command-line tool (Rust sources under `src/`).

The Rust code is shallowly embedded: pure functions become Lean functions,
file-system and subprocess effects are abstracted as oracle fields of
explicit "world" structures, and each command driver becomes a pure
function from a world to an event trace plus an `Except` outcome.
Rust `str` primitives (`lines`, `trim`, `strip_prefix`, `split` on a
separator) are modelled by executable functions on `List Char`.
-/

/-! ## Character-level models of Rust string primitives -/

/-- Model of splitting a character sequence at a separator character:
`splitOnChar sep cs` returns the (non-empty) list of segments between
occurrences of `sep`, like Rust `str::split(sep)`. -/
def splitOnChar (sep : Char) : List Char → List (List Char)
  | [] => [[]]
  | c :: cs =>
    if c = sep then [] :: splitOnChar sep cs
    else
      match splitOnChar sep cs with
      | [] => [[c]]
      | l :: ls => (c :: l) :: ls

/-- Strip one trailing carriage return, as Rust `str::lines` does per line. -/
def stripCR (l : List Char) : List Char :=
  if l.getLast? = some '\r' then l.dropLast else l

/-- Model of Rust `str::lines` on a character sequence: split at `'\n'`,
drop the trailing empty segment produced by a final newline (or by empty
input), and strip one trailing `'\r'` from each line. -/
def rustLinesL (cs : List Char) : List (List Char) :=
  let parts := splitOnChar '\n' cs
  let parts := if parts.getLast? = some [] then parts.dropLast else parts
  parts.map stripCR

/-- Model of Rust `str::lines` producing `String`s. -/
def rustLines (s : String) : List String :=
  (rustLinesL s.data).map (fun l => ⟨l⟩)

/-- Model of Rust `str::trim` (drop leading and trailing whitespace). -/
def trimChars (cs : List Char) : List Char :=
  ((cs.dropWhile Char.isWhitespace).reverse.dropWhile Char.isWhitespace).reverse

theorem lengthDropWhileLe (p : α → Bool) (l : List α) :
    (l.dropWhile p).length ≤ l.length := by
  induction l with
  | nil => simp
  | cons a l ih =>
    rw [List.dropWhile_cons]
    split
    · exact Nat.le_succ_of_le ih
    · simp

/-! ## The worktree record and the porcelain parser (`src/git.rs`) -/

/-- Structure `Worktree` from `src/git.rs`: one record per checkout registered with
the repository. -/
structure Worktree where
  path : String
  head : String
  branch : Option String
deriving DecidableEq

/-- The four recognized line shapes of the porcelain listing, in the order
the source tests them: a `worktree ` marker, a `HEAD ` line, a `branch `
line, the exact token `bare`; anything else is `other`. -/
inductive LineKind where
  | marker (p : String)
  | headLine (v : String)
  | branchLine (v : String)
  | bareLine
  | other
deriving DecidableEq

/-- Line dispatch of `parse_worktree_list` (`src/git.rs`): the chain of
`strip_prefix "worktree "` / `strip_prefix "HEAD "` / `strip_prefix
"branch "` tests and the `== "bare"` comparison.  The four shapes are
mutually exclusive, so the source's sequential tests are modelled by one
match on the line's characters. -/
def classifyLine (line : String) : LineKind :=
  match line.data with
  | 'w' :: 'o' :: 'r' :: 'k' :: 't' :: 'r' :: 'e' :: 'e' :: ' ' :: r => .marker ⟨r⟩
  | 'H' :: 'E' :: 'A' :: 'D' :: ' ' :: r => .headLine ⟨r⟩
  | 'b' :: 'r' :: 'a' :: 'n' :: 'c' :: 'h' :: ' ' :: r => .branchLine ⟨r⟩
  | ['b', 'a', 'r', 'e'] => .bareLine
  | _ => .other

/-- The mutable per-record state of the parser loop: `current_path`,
`current_head`, `current_branch` from `parse_worktree_list`. -/
structure PState where
  path : Option String
  head : Option String
  branch : Option String
deriving DecidableEq

/-- Action of one recognized line shape on the parser state and output.
On a `worktree ` marker both `current_path` and `current_head` are taken
(reset to `None`) and the previous record is pushed only when both were
present; `current_branch` is reset either way. -/
def parseStepK (st : PState × List Worktree) (k : LineKind) : PState × List Worktree :=
  match k with
  | .marker p =>
    match st.1.path, st.1.head with
    | some pp, some hh => (⟨some p, none, none⟩, st.2 ++ [⟨pp, hh, st.1.branch⟩])
    | some _, none => (⟨some p, none, none⟩, st.2)
    | none, _ => (⟨some p, none, none⟩, st.2)
  | .headLine v => (⟨st.1.path, some v, st.1.branch⟩, st.2)
  | .branchLine v => (⟨st.1.path, st.1.head, some v⟩, st.2)
  | .bareLine => (⟨st.1.path, some "(bare)", st.1.branch⟩, st.2)
  | .other => st

/-- One iteration of the `for line in output.lines()` loop of
`parse_worktree_list`. -/
def parseStep (st : PState × List Worktree) (line : String) : PState × List Worktree :=
  parseStepK st (classifyLine line)

/-- The record the parser would flush from state `s`: present only when
both a path and a head value are pending. -/
def emitOf (s : PState) : List Worktree :=
  match s.path, s.head with
  | some pp, some hh => [⟨pp, hh, s.branch⟩]
  | some _, none => []
  | none, _ => []

/-- The final flush after the loop of `parse_worktree_list`
("Don't forget the last one"). -/
def finishParse (st : PState × List Worktree) : List Worktree :=
  st.2 ++ emitOf st.1

/-- Function `parse_worktree_list` acting on an already-split line list. -/
def parseLines (ls : List String) : List Worktree :=
  finishParse (ls.foldl parseStep (⟨none, none, none⟩, []))

/-- Function `parse_worktree_list` from `src/git.rs`: parse `git worktree list
--porcelain` output into structured records. -/
def parse_worktree_list (s : String) : List Worktree :=
  parseLines (rustLines s)

/-! ## Specification-side description of the parser

The spec (§4.3) describes the parser output block-by-block: each
`worktree ` marker opens a block, the head is the value of the last
head-setting line of the block (a `HEAD ` line or the `bare` token, the
latter yielding the sentinel `(bare)`), the branch is the value of the
last `branch ` line of the block, and a block is emitted (in marker
order) exactly when it has a head value. -/

/-- A line that does not open a new record block. -/
def notMarker (l : String) : Bool :=
  match classifyLine l with
  | .marker _ => false
  | _ => true

/-- Effect of one block-body line on the pending head value. -/
def headUpd (h : Option String) (l : String) : Option String :=
  match classifyLine l with
  | .headLine v => some v
  | .bareLine => some "(bare)"
  | _ => h

/-- Effect of one block-body line on the pending branch value. -/
def branchUpd (b : Option String) (l : String) : Option String :=
  match classifyLine l with
  | .branchLine v => some v
  | _ => b

/-- The (zero or one) records a block with marker argument `p` and body
`body` contributes, per the spec's description. -/
def blockRecord (p : String) (body : List String) : List Worktree :=
  match body.foldl headUpd none with
  | some hd => [⟨p, hd, body.foldl branchUpd none⟩]
  | none => []

/-- Specification-side parse: lines before the first marker are ignored;
each marker opens a block extending to the next marker; blocks are
emitted in marker order when complete. -/
def specParse : List String → List Worktree
  | [] => []
  | l :: ls =>
    match classifyLine l with
    | .marker p => blockRecord p (ls.takeWhile notMarker) ++ specParse (ls.dropWhile notMarker)
    | _ => specParse ls
termination_by ls => ls.length
decreasing_by
  · simpa using Nat.lt_succ_of_le (lengthDropWhileLe _ _)
  · simp

/-! ### Parser equivalence proof -/

/-- Recursive reformulation of the parser loop, used as a bridge between
the `foldl` form and the block-structured spec description. -/
def runP : PState → List String → List Worktree
  | s, [] => emitOf s
  | s, l :: ls =>
    match classifyLine l with
    | .marker p => emitOf s ++ runP ⟨some p, none, none⟩ ls
    | .headLine v => runP ⟨s.path, some v, s.branch⟩ ls
    | .branchLine v => runP ⟨s.path, s.head, some v⟩ ls
    | .bareLine => runP ⟨s.path, some "(bare)", s.branch⟩ ls
    | .other => runP s ls

theorem finishParse_foldl (ls : List String) :
    ∀ (s : PState) (acc : List Worktree),
      finishParse (ls.foldl parseStep (s, acc)) = acc ++ runP s ls := by
  induction ls with
  | nil =>
    intro s acc
    simp [finishParse, runP]
  | cons l ls ih =>
    intro s acc
    simp only [List.foldl_cons, runP]
    cases hcl : classifyLine l with
    | marker p =>
      have hstep : parseStep (s, acc) l = (⟨some p, none, none⟩, acc ++ emitOf s) := by
        simp only [parseStep, hcl, parseStepK]
        rcases s with ⟨sp, sh, sb⟩
        cases sp <;> cases sh <;> simp [emitOf]
      rw [hstep, ih]
      simp
    | headLine v =>
      have hstep : parseStep (s, acc) l = (⟨s.path, some v, s.branch⟩, acc) := by
        simp [parseStep, hcl, parseStepK]
      rw [hstep, ih]
    | branchLine v =>
      have hstep : parseStep (s, acc) l = (⟨s.path, s.head, some v⟩, acc) := by
        simp [parseStep, hcl, parseStepK]
      rw [hstep, ih]
    | bareLine =>
      have hstep : parseStep (s, acc) l = (⟨s.path, some "(bare)", s.branch⟩, acc) := by
        simp [parseStep, hcl, parseStepK]
      rw [hstep, ih]
    | other =>
      have hstep : parseStep (s, acc) l = (s, acc) := by
        simp [parseStep, hcl, parseStepK]
      rw [hstep, ih]

theorem parseLines_eq_runP (ls : List String) :
    parseLines ls = runP ⟨none, none, none⟩ ls := by
  simpa using finishParse_foldl ls ⟨none, none, none⟩ []

/-- A state whose path component is pending behaves, over a block body,
like the block fold of the spec description. -/
theorem runP_some (ls : List String) :
    ∀ (p : String) (h b : Option String),
      runP ⟨some p, h, b⟩ ls =
        (match (ls.takeWhile notMarker).foldl headUpd h with
         | some hd => [⟨p, hd, (ls.takeWhile notMarker).foldl branchUpd b⟩]
         | none => []) ++ specParse (ls.dropWhile notMarker) := by
  induction ls with
  | nil =>
    intro p h b
    simp only [runP, List.takeWhile_nil, List.dropWhile_nil, List.foldl_nil, specParse]
    cases h <;> simp [emitOf]
  | cons l ls ih =>
    intro p h b
    cases hcl : classifyLine l with
    | marker q =>
      have hnm : notMarker l = false := by simp [notMarker, hcl]
      have hsp : specParse (l :: ls) =
          blockRecord q (ls.takeWhile notMarker) ++ specParse (ls.dropWhile notMarker) := by
        rw [specParse.eq_def]
        simp [hcl]
      simp only [runP, hcl, List.takeWhile_cons, hnm, List.dropWhile_cons,
        Bool.false_eq_true, if_false, hsp, blockRecord]
      rw [ih q none none]
      cases h <;> simp [emitOf, blockRecord]
    | headLine v =>
      have hnm : notMarker l = true := by simp [notMarker, hcl]
      have hh : headUpd h l = some v := by simp [headUpd, hcl]
      have hb : branchUpd b l = b := by simp [branchUpd, hcl]
      simp only [runP, hcl, List.takeWhile_cons, hnm, List.dropWhile_cons, if_true,
        List.foldl_cons, hh, hb]
      exact ih p (some v) b
    | branchLine v =>
      have hnm : notMarker l = true := by simp [notMarker, hcl]
      have hh : headUpd h l = h := by simp [headUpd, hcl]
      have hb : branchUpd b l = some v := by simp [branchUpd, hcl]
      simp only [runP, hcl, List.takeWhile_cons, hnm, List.dropWhile_cons, if_true,
        List.foldl_cons, hh, hb]
      exact ih p h (some v)
    | bareLine =>
      have hnm : notMarker l = true := by simp [notMarker, hcl]
      have hh : headUpd h l = some "(bare)" := by simp [headUpd, hcl]
      have hb : branchUpd b l = b := by simp [branchUpd, hcl]
      simp only [runP, hcl, List.takeWhile_cons, hnm, List.dropWhile_cons, if_true,
        List.foldl_cons, hh, hb]
      exact ih p (some "(bare)") b
    | other =>
      have hnm : notMarker l = true := by simp [notMarker, hcl]
      have hh : headUpd h l = h := by simp [headUpd, hcl]
      have hb : branchUpd b l = b := by simp [branchUpd, hcl]
      simp only [runP, hcl, List.takeWhile_cons, hnm, List.dropWhile_cons, if_true,
        List.foldl_cons, hh, hb]
      exact ih p h b

/-- Before any marker is seen, pending head/branch values are irrelevant
and the parser agrees with the spec-side description. -/
theorem runP_none (ls : List String) :
    ∀ (h b : Option String), runP ⟨none, h, b⟩ ls = specParse ls := by
  induction ls with
  | nil =>
    intro h b
    simp [runP, emitOf, specParse]
  | cons l ls ih =>
    intro h b
    cases hcl : classifyLine l with
    | marker q =>
      have hsp : specParse (l :: ls) =
          blockRecord q (ls.takeWhile notMarker) ++ specParse (ls.dropWhile notMarker) := by
        rw [specParse.eq_def]
        simp [hcl]
      simp only [runP, hcl, emitOf, List.nil_append]
      rw [runP_some ls q none none, hsp, blockRecord]
    | headLine v =>
      have hsp : specParse (l :: ls) = specParse ls := by
        rw [specParse.eq_def]
        simp [hcl]
      simp only [runP, hcl]
      rw [ih (some v) b, hsp]
    | branchLine v =>
      have hsp : specParse (l :: ls) = specParse ls := by
        rw [specParse.eq_def]
        simp [hcl]
      simp only [runP, hcl]
      rw [ih h (some v), hsp]
    | bareLine =>
      have hsp : specParse (l :: ls) = specParse ls := by
        rw [specParse.eq_def]
        simp [hcl]
      simp only [runP, hcl]
      rw [ih (some "(bare)") b, hsp]
    | other =>
      have hsp : specParse (l :: ls) = specParse ls := by
        rw [specParse.eq_def]
        simp [hcl]
      simp only [runP, hcl]
      rw [ih h b, hsp]

/-- C1: Porcelain parsing.  For every input text, the parser agrees with
the spec's block description: each `worktree ` marker opens a record; a
record is emitted exactly when it has both a path and a head value (so a
record with a path but no head is silently dropped); the still-pending
complete record at end of input is flushed; and the emitted records are in
the order their `worktree ` marker lines appeared. -/
theorem c1_porcelain_parse (s : String) :
    parse_worktree_list s = specParse (rustLines s) := by
  rw [parse_worktree_list, parseLines_eq_runP, runP_none]

/-! ## C9: unrecognized lines are ignored by the parser -/

theorem parseStep_other (st : PState × List Worktree) (junk : String)
    (h : classifyLine junk = .other) : parseStep st junk = st := by
  simp [parseStep, h, parseStepK]

/-- C9: Parser totality / junk insensitivity.  The parser is a total
function of the input lines, and a line matching none of the four
recognized shapes (`worktree ` prefix, `HEAD ` prefix, `branch ` prefix,
exact token `bare`) contributes nothing: deleting it from the line list
leaves the parse unchanged. -/
theorem c9_parser_ignores_junk (pre post : List String) (junk : String)
    (h : classifyLine junk = .other) :
    parseLines (pre ++ junk :: post) = parseLines (pre ++ post) := by
  unfold parseLines
  rw [List.foldl_append, List.foldl_append, List.foldl_cons,
    parseStep_other _ _ h]

/-- Witness for `c9_parser_ignores_junk` at a concrete junk line. -/
theorem c9_parser_ignores_junk_witness :
    classifyLine "detached" = .other ∧
      parseLines (["worktree /a"] ++ "detached" :: ["HEAD h"]) =
        parseLines (["worktree /a"] ++ ["HEAD h"]) :=
  ⟨by decide, c9_parser_ignores_junk ["worktree /a"] ["HEAD h"] "detached" (by decide)⟩

/-! ## Path names and the list display (`src/commands/list.rs`) -/

/-- Components of a path string: split at `/`, dropping empty and `.`
segments — a model of Rust `Path::components`. -/
def pathComponentsL (s : String) : List (List Char) :=
  (splitOnChar '/' s.data).filter (fun c => !c.isEmpty && c != ['.'])

/-- Model of Rust `Path::file_name` (via `to_string_lossy`): the final
path component, or none for a root path or one ending in `..`. -/
def fileName (p : String) : Option String :=
  match (pathComponentsL p).getLast? with
  | some c => if c = ['.', '.'] then none else some ⟨c⟩
  | none => none

/-- Components of a path as strings (for the `Path::starts_with` model). -/
def pathComponents (p : String) : List String :=
  (pathComponentsL p).map (fun c => ⟨c⟩)

/-- Function `format_branch_info` from `src/commands/list.rs`: strip a
`refs/heads/` prefix from the branch, or show the first 7 characters of
the commit SHA when no branch is present. -/
def format_branch_info (branch : Option String) (head : String) : String :=
  match branch with
  | some b =>
    match b.data with
    | 'r' :: 'e' :: 'f' :: 's' :: '/' :: 'h' :: 'e' :: 'a' :: 'd' :: 's' :: '/' :: r => ⟨r⟩
    | _ => b
  | none => ⟨head.data.take 7⟩

/-- Left-justified padding to 20 columns, the `{:<20}` format width used
by the list display. -/
def padName (s : String) : String :=
  ⟨s.data ++ List.replicate (20 - s.data.length) ' '⟩

/-- One display line of the list command: `{:<20} [{}]`. -/
def listLine (name info : String) : String :=
  padName name ++ " [" ++ info ++ "]"

/-- The display name of a record in `list::run`: the file name of the
path, falling back to the displayed path itself. -/
def displayName (wt : Worktree) : String :=
  (fileName wt.path).getD wt.path

/-- The lines printed by the loop of `list::run` (`src/commands/list.rs`):
one line per record, skipping any record whose display name is `.bare`. -/
def listLines (wts : List Worktree) : List String :=
  wts.filterMap (fun wt =>
    if displayName wt = ".bare" then none
    else some (listLine (displayName wt) (format_branch_info wt.branch wt.head)))

/-- The listing text of the spec's end-to-end display scenario. -/
def c8Text : String :=
  "worktree /r/.bare\nbare\n\nworktree /r/main\nHEAD abc123\nbranch refs/heads/main\n"

/-- C8 counterexample: on the scenario text the display line is not the
bare string `main [main]` — the name is padded to 20 columns first. -/
theorem c8_counterexample :
    listLines (parse_worktree_list c8Text) ≠ ["main [main]"] ∧
      (parse_worktree_list c8Text).length = 2 := by
  constructor
  · decide
  · decide

/-- C8 (amended): the scenario text parses to exactly the bare record and
the `main` record; filtering the bare entry and formatting yields the
single display line `main [main]` with the name left-justified in a
20-column field (16 trailing pad spaces). -/
theorem c8_display_scenario :
    parse_worktree_list c8Text =
        [⟨"/r/.bare", "(bare)", none⟩, ⟨"/r/main", "abc123", some "refs/heads/main"⟩] ∧
      listLines (parse_worktree_list c8Text) = [listLine "main" "main"] ∧
      listLine "main" "main" = "main" ++ ⟨List.replicate 16 ' '⟩ ++ " [main]" := by
  refine ⟨by decide, by decide, by decide⟩

/-! ## Previous-worktree state store (`src/state.rs`)

The store is modelled at the level of file contents: `save` produces the
exact text written to `.wtree/state`, and `read` consumes the file's
contents (`none` standing for an absent file, which Rust reports as
`Ok(None)`). -/

/-- Function `save_previous_worktree` (`src/state.rs`): the state file's entire
contents after a save — exactly one line `previous=<name>`. -/
def save_previous_worktree (name : String) : String :=
  "previous=" ++ name ++ "\n"

/-- Model of `line.strip_prefix("previous=")`. -/
def stripPreviousEq : List Char → Option (List Char)
  | 'p' :: 'r' :: 'e' :: 'v' :: 'i' :: 'o' :: 'u' :: 's' :: '=' :: rest => some rest
  | _ => none

/-- The line scan of `read_previous_worktree`: first line of the form
`previous=<value>` whose value is non-empty after trimming. -/
def readLinesLoop : List String → Option String
  | [] => none
  | l :: ls =>
    match stripPreviousEq l.data with
    | some v =>
      let t := trimChars v
      if t.isEmpty then readLinesLoop ls else some ⟨t⟩
    | none => readLinesLoop ls

/-- Function `read_previous_worktree` (`src/state.rs`) on the state file's
contents (`none` = file absent). -/
def read_previous_worktree (file : Option String) : Option String :=
  match file with
  | none => none
  | some content => readLinesLoop (rustLines content)

/-- C4 counterexample: the round-trip fails for the name `"a "` (non-empty,
no embedded newline): reading back returns `some "a"` because the value is
trimmed, not `some "a "`. -/
theorem c4_counterexample :
    ("a " : String) ≠ "" ∧ '\n' ∉ ("a " : String).data ∧
      read_previous_worktree (some (save_previous_worktree "a ")) = some "a" ∧
      some ("a" : String) ≠ some ("a " : String) := by
  refine ⟨by decide, by decide, by decide, by decide⟩

theorem splitNlSnoc (xs : List Char) (h : '\n' ∉ xs) :
    splitOnChar '\n' (xs ++ ['\n']) = [xs, []] := by
  induction xs with
  | nil => decide
  | cons c cs ih =>
    have hc : c ≠ '\n' := fun hc => h (hc ▸ List.mem_cons_self c cs)
    have hmem : '\n' ∉ cs := fun hm => h (List.mem_cons_of_mem c hm)
    simp only [List.cons_append, splitOnChar, if_neg hc, List.append_eq, ih hmem]

theorem dropWhileLenEq (p : α → Bool) (l : List α)
    (h : (l.dropWhile p).length = l.length) : l.dropWhile p = l := by
  induction l with
  | nil => simp
  | cons a l ih =>
    rw [List.dropWhile_cons] at h ⊢
    by_cases hp : p a = true
    · rw [if_pos hp] at h ⊢
      have := lengthDropWhileLe p l
      simp only [List.length_cons] at h
      omega
    · rw [if_neg hp]

theorem trimCharsLastNotWS (cs : List Char)
    (h : trimChars cs = cs) (c : Char) (hlast : cs.getLast? = some c) :
    c.isWhitespace = false := by
  by_contra hws
  have hws : c.isWhitespace = true := by
    cases hcase : c.isWhitespace
    · exact absurd hcase hws
    · rfl
  unfold trimChars at h
  have hlen : ((cs.dropWhile Char.isWhitespace).reverse.dropWhile Char.isWhitespace).length = cs.length := by
    have := congrArg List.length h
    rwa [List.length_reverse] at this
  have hle1 : ((cs.dropWhile Char.isWhitespace).reverse.dropWhile Char.isWhitespace).length ≤
      (cs.dropWhile Char.isWhitespace).length := by
    have := lengthDropWhileLe Char.isWhitespace (cs.dropWhile Char.isWhitespace).reverse
    rwa [List.length_reverse] at this
  have hle2 : (cs.dropWhile Char.isWhitespace).length ≤ cs.length := lengthDropWhileLe _ _
  have hdeq : cs.dropWhile Char.isWhitespace = cs := dropWhileLenEq _ _ (by omega)
  rw [hdeq] at hlen
  have hreq : cs.reverse.dropWhile Char.isWhitespace = cs.reverse := by
    apply dropWhileLenEq
    rw [hlen, List.length_reverse]
  have hhead : cs.reverse.head? = some c := by
    rw [List.head?_reverse, hlast]
  rcases hrev : cs.reverse with _ | ⟨d, t⟩
  · rw [hrev] at hhead; simp at hhead
  · rw [hrev] at hhead
    have hdc : d = c := by simpa using hhead
    rw [hrev, List.dropWhile_cons, hdc, hws] at hreq
    simp only [if_true] at hreq
    have hle := lengthDropWhileLe Char.isWhitespace t
    have hlent : (t.dropWhile Char.isWhitespace).length = t.length + 1 := by
      rw [hreq]
      simp
    omega

theorem stripCRofNoCR (xs : List Char) (h : xs.getLast? ≠ some '\r') :
    stripCR xs = xs := by
  unfold stripCR
  rw [if_neg h]

/-- C4 (amended): the state-store round-trip holds for every non-empty
name with no embedded newline and no leading or trailing whitespace
(`trim` leaves it unchanged): reading back the saved file returns exactly
the name. -/
theorem c4_round_trip (name : String) (h1 : name ≠ "") (h2 : '\n' ∉ name.data)
    (h3 : trimChars name.data = name.data) :
    read_previous_worktree (some (save_previous_worktree name)) = some name := by
  have hd : name.data ≠ [] := by
    intro hnil
    apply h1
    have hmk : name = ⟨name.data⟩ := rfl
    rw [hmk, hnil]
  have hlastcr : name.data.getLast? ≠ some '\r' := by
    intro hsome
    have := trimCharsLastNotWS name.data h3 '\r' hsome
    simp [Char.isWhitespace] at this
  have hxs : '\n' ∉ "previous=".data ++ name.data := by
    intro hm
    rcases List.mem_append.1 hm with hm | hm
    · exact absurd hm (by decide)
    · exact h2 hm
  have hxslast : ("previous=".data ++ name.data).getLast? ≠ some '\r' := by
    rw [List.getLast?_append_of_ne_nil _ hd]
    exact hlastcr
  have hdata : (save_previous_worktree name).data =
      ("previous=".data ++ name.data) ++ ['\n'] := by
    simp [save_previous_worktree]
  have hlines : rustLines (save_previous_worktree name) =
      [⟨"previous=".data ++ name.data⟩] := by
    unfold rustLines rustLinesL
    rw [hdata, splitNlSnoc _ hxs]
    simp only [List.getLast?, List.dropLast, List.map]
    rw [stripCRofNoCR _ hxslast]
  have hread : read_previous_worktree (some (save_previous_worktree name)) =
      readLinesLoop (rustLines (save_previous_worktree name)) := rfl
  rw [hread, hlines]
  have hstrip : stripPreviousEq ("previous=".data ++ name.data) = some name.data := rfl
  simp only [readLinesLoop, hstrip, h3]
  have hie : name.data.isEmpty = false := by
    cases hcase : name.data
    · exact absurd hcase hd
    · rfl
  rw [hie]
  rfl

/-- Witness for `c4_round_trip` at the concrete name `feature`. -/
theorem c4_round_trip_witness :
    (("feature" : String) ≠ "" ∧ '\n' ∉ ("feature" : String).data ∧
        trimChars ("feature" : String).data = ("feature" : String).data) ∧
      read_previous_worktree (some (save_previous_worktree "feature")) = some "feature" :=
  ⟨⟨by decide, by decide, by decide⟩,
    c4_round_trip "feature" (by decide) (by decide) (by decide)⟩

/-! ## Hook engine (`src/hooks.rs`)

Hook execution is effectful (spawns `sh -c`); it is abstracted by an
oracle of type `HookExec` giving the outcome of `run_single_hook` for a
phase, context and command string.  `runHooksT` additionally returns the
list of hook commands actually executed, so that "stops at the first
failure" is expressible. -/

/-- Enum `Phase` from `src/hooks.rs`. -/
inductive Phase where
  | pre
  | post
deriving DecidableEq

/-- Structure `CommandHooks` from `src/hooks.rs`. -/
structure CommandHooks where
  pre : List String
  post : List String
deriving DecidableEq

/-- Structure `HooksConfig` from `src/hooks.rs`. -/
structure HooksConfig where
  create : CommandHooks
  switch : CommandHooks
  remove : CommandHooks
deriving DecidableEq

/-- Structure `HookContext` from `src/hooks.rs`. -/
structure HookContext where
  command : String
  worktreeName : String
  worktreePath : String
  hubRoot : String
  branch : Option String
deriving DecidableEq

/-- Function `get_command_hooks` from `src/hooks.rs`: select the section for a
command name, falling back to `create` for unknown names. -/
def get_command_hooks (config : HooksConfig) (command : String) : CommandHooks :=
  if command = "create" then config.create
  else if command = "switch" then config.switch
  else if command = "remove" then config.remove
  else config.create

/-- Oracle for `run_single_hook`: outcome of executing one hook command
string in a phase with a context (the phase decides the working
directory, the context the environment variables). -/
def HookExec : Type := Phase → HookContext → String → Except String Unit

/-- Function `run_hooks` from `src/hooks.rs`, with the executed-commands trace:
run hooks in order, stopping at (and returning) the first failure. -/
def runHooksT (exec : HookExec) (ph : Phase) (ctx : HookContext) :
    List String → List String × Except String Unit
  | [] => ([], .ok ())
  | h :: t =>
    match exec ph ctx h with
    | .error e => ([h], .error e)
    | .ok _ =>
      let r := runHooksT exec ph ctx t
      (h :: r.1, r.2)

/-- Function `run_pre_hooks` from `src/hooks.rs`: no-op without a configuration,
otherwise runs the selected section's `pre` list. -/
def run_pre_hooks (config : Option HooksConfig) (exec : HookExec)
    (ctx : HookContext) : List String × Except String Unit :=
  match config with
  | none => ([], .ok ())
  | some c => runHooksT exec .pre ctx (get_command_hooks c ctx.command).pre

/-- Function `run_post_hooks` from `src/hooks.rs`: runs the selected section's
`post` list; a failure is converted into a warning message (second
component) and never into an error. -/
def run_post_hooks (config : Option HooksConfig) (exec : HookExec)
    (ctx : HookContext) : List String × Option String :=
  match config with
  | none => ([], none)
  | some c =>
    let r := runHooksT exec .post ctx (get_command_hooks c ctx.command).post
    (r.1,
      match r.2 with
      | .error e => some ("Warning: post-hook failed: " ++ e)
      | .ok _ => none)

/-- Events observable in a driver run: a `run_git_in_dir` invocation at
the hub root, an executed hook, a stdout line, a stderr line, an
attempted file copy. -/
inductive Ev where
  | git (args : List String)
  | hookRun (ph : Phase) (cmd : String)
  | out (s : String)
  | errOut (s : String)
  | copy (file : String)
deriving DecidableEq

/-- Trace events of a list of executed hooks. -/
def hookEvs (ph : Phase) (tr : List String) : List Ev :=
  tr.map (Ev.hookRun ph)

/-- Trace events of a post-hook run: executed hooks plus the possible
warning line. -/
def postEvs (r : List String × Option String) : List Ev :=
  hookEvs .post r.1 ++ (r.2.map Ev.errOut).toList

/-- Execution of `run_hooks` stops at the first failing hook: with all of `l₁`
succeeding and `f` failing, exactly `l₁ ++ [f]` is executed and the
failure is returned; no hook of `l₂` runs. -/
theorem runHooksT_stop (exec : HookExec) (ph : Phase) (ctx : HookContext)
    (l₁ l₂ : List String) (f e : String)
    (hok : ∀ h ∈ l₁, exec ph ctx h = .ok ())
    (hf : exec ph ctx f = .error e) :
    runHooksT exec ph ctx (l₁ ++ f :: l₂) = (l₁ ++ [f], .error e) := by
  induction l₁ with
  | nil =>
    simp only [List.nil_append, runHooksT, hf]
  | cons a l₁ ih =>
    have ha : exec ph ctx a = .ok () := hok a (List.mem_cons_self a l₁)
    have hok₁ : ∀ h ∈ l₁, exec ph ctx h = .ok () :=
      fun h hm => hok h (List.mem_cons_of_mem a hm)
    simp only [List.cons_append, runHooksT, ha, List.append_eq, ih hok₁]

/-- Every hook of the list succeeding, `run_hooks` executes all of them
and succeeds. -/
theorem runHooksT_ok (exec : HookExec) (ph : Phase) (ctx : HookContext)
    (l : List String) (hok : ∀ h ∈ l, exec ph ctx h = .ok ()) :
    runHooksT exec ph ctx l = (l, .ok ()) := by
  induction l with
  | nil => rfl
  | cons a l ih =>
    have ha : exec ph ctx a = .ok () := hok a (List.mem_cons_self a l)
    have hok₁ : ∀ h ∈ l, exec ph ctx h = .ok () :=
      fun h hm => hok h (List.mem_cons_of_mem a hm)
    simp only [runHooksT, ha, ih hok₁]

/-! ## Command drivers

Each driver is modelled as a pure function from a world of oracles
(outcomes of hub-root resolution, registry queries, git invocations, hook
executions, state-file writes, …) to the trace of observable events and
the driver's `Result`.  Registry and state queries are composite helpers
in the source; they enter the drivers as single oracles. -/

/-- Name matching used by the `switch` target lookup and the `create
--base` lookup: the candidate's directory (file) name equals the target;
a path without a file name never matches. -/
def nameMatches (target : String) (wt : Worktree) : Bool :=
  match fileName wt.path with
  | some n => n == target
  | none => false

/-- Model of `PathBuf::join` of an absolute hub root and a relative name. -/
def pathJoin (hub name : String) : String :=
  hub ++ "/" ++ name

/-- Function `should_copy_env_file` from `src/commands/switch.rs`: true for file
names starting with `.env` except exactly `.env.example`. -/
def should_copy_env_file (filename : String) : Bool :=
  ".env".data.isPrefixOf filename.data && filename != ".env.example"

/-- World of oracles for `create::run` (`src/commands/create.rs`). -/
structure CreateWorld where
  hubRes : Except String String
  currentRes : Except String (Option String)
  listRes : Except String (List Worktree)
  hooks : Option HooksConfig
  exec : HookExec
  gitRes : List String → Except String String
  saveRes : Except String Unit

/-- The `--base` resolution step of `create::run`: look the source
worktree up by name and take its head commit. -/
def createBaseSha (w : CreateWorld) (base : Option String) :
    Except String (Option String) :=
  match base with
  | some source =>
    match w.listRes with
    | .error e => .error e
    | .ok wts =>
      match wts.find? (nameMatches source) with
      | some wt => .ok (some wt.head)
      | none => .error ("Worktree '" ++ source ++ "' not found")
  | none => .ok none

/-- The hook context built by `create::run`. -/
def createCtx (hub name : String) (checkout base : Option String) : HookContext :=
  ⟨"create", name, pathJoin hub name, hub, checkout.or (base.map (fun _ => name))⟩

/-- Driver `create::run` (`src/commands/create.rs`). -/
def createRun (w : CreateWorld) (name : String) (checkout base : Option String)
    (sw : Bool) : List Ev × Except String Unit :=
  match w.hubRes with
  | .error e => ([], .error e)
  | .ok hub =>
    match (if sw then w.currentRes else .ok none) with
    | .error e => ([], .error e)
    | .ok currentWorktree =>
      match createBaseSha w base with
      | .error e => ([], .error e)
      | .ok baseSha =>
        let ctx := createCtx hub name checkout base
        let preR := run_pre_hooks w.hooks w.exec ctx
        match preR.2 with
        | .error e => (hookEvs .pre preR.1, .error e)
        | .ok _ =>
          let args : List String :=
            match checkout, baseSha with
            | some b, _ => ["worktree", "add", name, b]
            | none, some sha => ["worktree", "add", "-b", name, name, sha]
            | none, none => ["worktree", "add", name]
          match w.gitRes args with
          | .error e => (hookEvs .pre preR.1 ++ [Ev.git args], .error e)
          | .ok _ =>
            let postR := run_post_hooks w.hooks w.exec ctx
            let baseEv := hookEvs .pre preR.1 ++ [Ev.git args] ++ postEvs postR
            if sw then
              match currentWorktree with
              | some _ =>
                match w.saveRes with
                | .error e => (baseEv, .error e)
                | .ok _ => (baseEv ++ [Ev.out (pathJoin hub name)], .ok ())
              | none => (baseEv ++ [Ev.out (pathJoin hub name)], .ok ())
            else
              (baseEv ++
                [Ev.out ("Created worktree '" ++ name ++ "' at " ++ pathJoin hub name)] ++
                (match base with
                 | some source => [Ev.out ("Branched from worktree: " ++ source)]
                 | none =>
                   match checkout with
                   | some b => [Ev.out ("Checked out branch: " ++ b)]
                   | none => []), .ok ())

/-- World of oracles for `remove::run` (`src/commands/remove.rs`). -/
structure RemoveWorld where
  hubRes : Except String String
  hooks : Option HooksConfig
  exec : HookExec
  gitRes : List String → Except String String

/-- Function `format_error_summary` from `src/commands/remove.rs`. -/
def format_error_summary (errorCount : Nat) : String :=
  toString errorCount ++ " worktree(s) could not be removed"

/-- Function `format_error_line` from `src/commands/remove.rs`. -/
def format_error_line (name err : String) : String :=
  "  - '" ++ name ++ "': " ++ err

/-- The hook context built per target by `remove::run`. -/
def removeCtx (hub name : String) : HookContext :=
  ⟨"remove", name, pathJoin hub name, hub, none⟩

/-- The per-target body of the loop of `remove::run`: pre-hooks (a
failure records an error entry and skips the target), then `git worktree
remove`, then post-hooks and the success line, or an error entry. -/
def removeStep (w : RemoveWorld) (hub name : String) :
    List Ev × Option (String × String) :=
  let ctx := removeCtx hub name
  let preR := run_pre_hooks w.hooks w.exec ctx
  match preR.2 with
  | .error e => (hookEvs .pre preR.1, some (name, e))
  | .ok _ =>
    match w.gitRes ["worktree", "remove", name] with
    | .ok _ =>
      let postR := run_post_hooks w.hooks w.exec ctx
      (hookEvs .pre preR.1 ++ [Ev.git ["worktree", "remove", name]] ++ postEvs postR ++
        [Ev.out ("Removed worktree '" ++ name ++ "'")], none)
    | .error e =>
      (hookEvs .pre preR.1 ++ [Ev.git ["worktree", "remove", name]], some (name, e))

/-- The loop of `remove::run` over all target names, accumulating error
entries in order. -/
def removeLoop (w : RemoveWorld) (hub : String) :
    List String → List Ev × List (String × String)
  | [] => ([], [])
  | n :: ns =>
    let s := removeStep w hub n
    let r := removeLoop w hub ns
    (s.1 ++ r.1, s.2.toList ++ r.2)

/-- Driver `remove::run` (`src/commands/remove.rs`): process every target, then
report an aggregate error when any target failed. -/
def removeRun (w : RemoveWorld) (names : List String) :
    List Ev × Except String Unit :=
  match w.hubRes with
  | .error e => ([], .error e)
  | .ok hub =>
    let r := removeLoop w hub names
    if r.2.isEmpty then (r.1, .ok ())
    else
      (r.1 ++
        [Ev.errOut ("\nFailed to remove " ++ toString r.2.length ++ " worktree(s):")] ++
        r.2.map (fun p => Ev.errOut (format_error_line p.1 p.2)),
        .error (format_error_summary r.2.length))

/-- World of oracles for `switch::run` (`src/commands/switch.rs`). -/
structure SwitchWorld where
  hubRes : Except String String
  prevRes : Except String (Option String)
  listRes : Except String (List Worktree)
  currentRes : Except String (Option String)
  hooks : Option HooksConfig
  exec : HookExec
  cwdRes : Except String String
  readDirOk : Bool
  entries : List String
  entryIsFile : String → Bool
  copyRes : String → Except String Unit
  saveRes : Except String Unit

/-- The target-name resolution of `switch::run`: `-` is replaced by the
recorded previous worktree, failing when none is recorded. -/
def switchTarget (w : SwitchWorld) (name : String) : Except String String :=
  if name = "-" then
    match w.prevRes with
    | .error e => .error e
    | .ok none => .error "No previous worktree. Use 'wt switch <name>' first."
    | .ok (some n) => .ok n
  else .ok name

/-- The env-file copy loop of `switch::run`: for each directory entry
that passes `should_copy_env_file` and is a file, attempt the copy,
propagating a copy failure. -/
def copyLoop (w : SwitchWorld) : List String → List Ev × Except String Unit
  | [] => ([], .ok ())
  | f :: fs =>
    if should_copy_env_file f && w.entryIsFile f then
      match w.copyRes f with
      | .error e => ([Ev.copy f], .error e)
      | .ok _ =>
        let r := copyLoop w fs
        (Ev.copy f :: r.1, r.2)
    else copyLoop w fs

/-- Driver `switch::run` (`src/commands/switch.rs`). -/
def switchRun (w : SwitchWorld) (name : String) (copyEnvs : Bool) :
    List Ev × Except String Unit :=
  match w.hubRes with
  | .error e => ([], .error e)
  | .ok hub =>
    match switchTarget w name with
    | .error e => ([], .error e)
    | .ok target =>
      match w.listRes with
      | .error e => ([], .error e)
      | .ok wts =>
        match w.currentRes with
        | .error e => ([], .error e)
        | .ok current =>
          match wts.find? (nameMatches target) with
          | none =>
            ([], .error ("Worktree '" ++ target ++
              "' not found. Use 'wt list' to see available worktrees."))
          | some wt =>
            let ctx : HookContext := ⟨"switch", target, wt.path, hub, none⟩
            let preR := run_pre_hooks w.hooks w.exec ctx
            match preR.2 with
            | .error e => (hookEvs .pre preR.1, .error e)
            | .ok _ =>
              let copyR : List Ev × Except String Unit :=
                if copyEnvs then
                  match w.cwdRes with
                  | .error e => ([], .error e)
                  | .ok _ =>
                    if w.readDirOk then copyLoop w w.entries else ([], .ok ())
                else ([], .ok ())
              match copyR.2 with
              | .error e => (hookEvs .pre preR.1 ++ copyR.1, .error e)
              | .ok _ =>
                match (match current with
                       | some c => if c ≠ target then w.saveRes else Except.ok ()
                       | none => Except.ok () : Except String Unit) with
                | .error e => (hookEvs .pre preR.1 ++ copyR.1, .error e)
                | .ok _ =>
                  let postR := run_post_hooks w.hooks w.exec ctx
                  (hookEvs .pre preR.1 ++ copyR.1 ++ postEvs postR ++
                    [Ev.out wt.path], .ok ())

/-! ## C7: multi-target remove accumulates failures -/

/-- The error entries accumulated by a remove run: one per failed target,
in target order. -/
def removeFailures (w : RemoveWorld) (hub : String) (names : List String) :
    List (String × String) :=
  names.filterMap (fun n => (removeStep w hub n).2)

/-- The concatenation of the per-target traces of a remove run. -/
def removeStepTraces (w : RemoveWorld) (hub : String) (names : List String) :
    List Ev :=
  (names.map (fun n => (removeStep w hub n).1)).flatten

theorem removeLoop_eq (w : RemoveWorld) (hub : String) (names : List String) :
    removeLoop w hub names = (removeStepTraces w hub names, removeFailures w hub names) := by
  induction names with
  | nil => rfl
  | cons n ns ih =>
    simp only [removeLoop, ih, removeStepTraces, removeFailures, List.map_cons,
      List.flatten, List.filterMap_cons]
    cases h : (removeStep w hub n).2 <;> simp [h]

/-- C7: Multi-target remove.  With the hub root resolved, `remove::run`
processes every target in order (its trace is the concatenation of the
per-target traces, each containing the success line or contributing an
error entry), then — only after all targets — prints one detail line per
failure and returns the aggregate error exactly when at least one target
failed. -/
theorem c7_multi_target_remove (w : RemoveWorld) (hub : String) (names : List String)
    (hhub : w.hubRes = .ok hub) :
    removeRun w names =
      (removeStepTraces w hub names ++
        (if (removeFailures w hub names).isEmpty then []
         else
           [Ev.errOut ("\nFailed to remove " ++
             toString (removeFailures w hub names).length ++ " worktree(s):")] ++
             (removeFailures w hub names).map
               (fun p => Ev.errOut (format_error_line p.1 p.2))),
       if (removeFailures w hub names).isEmpty then .ok ()
       else .error (format_error_summary (removeFailures w hub names).length)) := by
  rw [removeRun, hhub]
  simp only [removeLoop_eq]
  cases h : (removeFailures w hub names).isEmpty <;> simp [h]

/-- Fixture world for the remove scenario: target `a` removes cleanly,
target `b` fails in the underlying tool. -/
def rwScenario : RemoveWorld :=
  { hubRes := .ok "/r"
  , hooks := none
  , exec := fun _ _ _ => .ok ()
  , gitRes := fun args =>
      if args = ["worktree", "remove", "b"] then .error "fatal: b is locked"
      else .ok "" }

/-- Witness for `c7_multi_target_remove`: removing `[a, b]` where `a`
succeeds and `b` fails. -/
theorem c7_multi_target_remove_witness :
    rwScenario.hubRes = .ok "/r" ∧
      removeRun rwScenario ["a", "b"] =
        (removeStepTraces rwScenario "/r" ["a", "b"] ++
          (if (removeFailures rwScenario "/r" ["a", "b"]).isEmpty then []
           else
             [Ev.errOut ("\nFailed to remove " ++
               toString (removeFailures rwScenario "/r" ["a", "b"]).length ++
                 " worktree(s):")] ++
               (removeFailures rwScenario "/r" ["a", "b"]).map
                 (fun p => Ev.errOut (format_error_line p.1 p.2))),
         if (removeFailures rwScenario "/r" ["a", "b"]).isEmpty then .ok ()
         else .error (format_error_summary (removeFailures rwScenario "/r" ["a", "b"]).length)) :=
  ⟨rfl, c7_multi_target_remove rwScenario "/r" ["a", "b"] rfl⟩

/-! ## C2: pre-hook failure aborts the lifecycle operation -/

/-- Whether an event is an invocation of the underlying git tool. -/
def Ev.isGit : Ev → Bool
  | .git _ => true
  | _ => false

theorem mem_hookEvs {ev : Ev} {ph : Phase} {tr : List String}
    (h : ev ∈ hookEvs ph tr) : ∃ c, ev = Ev.hookRun ph c := by
  rcases List.mem_map.1 h with ⟨c, _, rfl⟩
  exact ⟨c, rfl⟩

theorem mem_postEvs {ev : Ev} {r : List String × Option String}
    (h : ev ∈ postEvs r) :
    (∃ c, ev = Ev.hookRun .post c) ∨ ∃ s, ev = Ev.errOut s := by
  rcases List.mem_append.1 h with h | h
  · exact .inl (mem_hookEvs h)
  · right
    cases hr : r.2 with
    | none => rw [hr] at h; simp at h
    | some s =>
      rw [hr] at h
      simp at h
      exact ⟨s, h⟩

theorem removeStep_no_foreign_git (w : RemoveWorld) (rhub rname n e : String)
    (hpre : (run_pre_hooks w.hooks w.exec (removeCtx rhub rname)).2 = .error e) :
    Ev.git ["worktree", "remove", rname] ∉ (removeStep w rhub n).1 := by
  intro hmem
  by_cases hn : n = rname
  · subst hn
    have h1 : (removeStep w rhub n).1 =
        hookEvs .pre (run_pre_hooks w.hooks w.exec (removeCtx rhub n)).1 := by
      simp only [removeStep, hpre]
    rw [h1] at hmem
    rcases mem_hookEvs hmem with ⟨c, hc⟩
    exact Ev.noConfusion hc
  · cases hp : (run_pre_hooks w.hooks w.exec (removeCtx rhub n)).2 with
    | error e2 =>
      have h1 : (removeStep w rhub n).1 =
          hookEvs .pre (run_pre_hooks w.hooks w.exec (removeCtx rhub n)).1 := by
        simp only [removeStep, hp]
      rw [h1] at hmem
      rcases mem_hookEvs hmem with ⟨c, hc⟩
      exact Ev.noConfusion hc
    | ok u =>
      cases hg : w.gitRes ["worktree", "remove", n] with
      | error e2 =>
        have h1 : (removeStep w rhub n).1 =
            hookEvs .pre (run_pre_hooks w.hooks w.exec (removeCtx rhub n)).1 ++
              [Ev.git ["worktree", "remove", n]] := by
          simp only [removeStep, hp, hg]
        rw [h1] at hmem
        rcases List.mem_append.1 hmem with hmem | hmem
        · rcases mem_hookEvs hmem with ⟨c, hc⟩
          exact Ev.noConfusion hc
        · simp only [List.mem_singleton, Ev.git.injEq, List.cons.injEq,
            and_true, true_and] at hmem
          exact hn hmem.symm
      | ok s =>
        have h1 : (removeStep w rhub n).1 =
            hookEvs .pre (run_pre_hooks w.hooks w.exec (removeCtx rhub n)).1 ++
              [Ev.git ["worktree", "remove", n]] ++
              postEvs (run_post_hooks w.hooks w.exec (removeCtx rhub n)) ++
              [Ev.out ("Removed worktree '" ++ n ++ "'")] := by
          simp only [removeStep, hp, hg]
        rw [h1] at hmem
        rcases List.mem_append.1 hmem with hmem | hmem
        · rcases List.mem_append.1 hmem with hmem | hmem
          · rcases List.mem_append.1 hmem with hmem | hmem
            · rcases mem_hookEvs hmem with ⟨c, hc⟩
              exact Ev.noConfusion hc
            · simp only [List.mem_singleton, Ev.git.injEq, List.cons.injEq,
                and_true, true_and] at hmem
              exact hn hmem.symm
          · rcases mem_postEvs hmem with ⟨c, hc⟩ | ⟨s2, hc⟩ <;> exact Ev.noConfusion hc
        · simp at hmem

/-- C2: Pre-hook abort.  (1) `run_pre_hooks` executes the selected
section's `pre` list only up to and including the first failing command
and returns that failure.  (2) In the create driver, a pre-hook failure
makes the run return exactly that error with no git invocation in the
trace, so `git worktree add` is never attempted.  (3) In the remove
driver, a pre-hook failure for a target means `git worktree remove` is
never invoked for that target, whatever the full target list is. -/
theorem c2_pre_hook_abort
    (cfg : HooksConfig) (exec : HookExec) (ctx : HookContext)
    (l₁ l₂ : List String) (f e : String)
    (w : CreateWorld) (hub name : String) (checkout base : Option String)
    (sw : Bool) (cur baseSha : Option String) (tr : List String) (e₂ : String)
    (rw : RemoveWorld) (rhub rname e₃ : String) (names : List String)
    (hsel : (get_command_hooks cfg ctx.command).pre = l₁ ++ f :: l₂)
    (hok : ∀ h ∈ l₁, exec .pre ctx h = .ok ())
    (hf : exec .pre ctx f = .error e)
    (hw : w.hubRes = .ok hub)
    (hcur : (if sw then w.currentRes else .ok none) = .ok cur)
    (hbase : createBaseSha w base = .ok baseSha)
    (hpre : run_pre_hooks w.hooks w.exec (createCtx hub name checkout base) = (tr, .error e₂))
    (hrw : rw.hubRes = .ok rhub)
    (hpre₃ : (run_pre_hooks rw.hooks rw.exec (removeCtx rhub rname)).2 = .error e₃) :
    run_pre_hooks (some cfg) exec ctx = (l₁ ++ [f], .error e) ∧
      createRun w name checkout base sw = (hookEvs .pre tr, .error e₂) ∧
      (createRun w name checkout base sw).1.all (fun ev => !ev.isGit) = true ∧
      (removeRun rw names).1.all
        (fun ev => ev != Ev.git ["worktree", "remove", rname]) = true := by
  have hcreate : createRun w name checkout base sw = (hookEvs .pre tr, .error e₂) := by
    simp only [createRun, hw, hcur, hbase, hpre]
  refine ⟨?_, hcreate, ?_, ?_⟩
  · rw [run_pre_hooks, hsel]
    exact runHooksT_stop exec .pre ctx l₁ l₂ f e hok hf
  · rw [hcreate]
    simp [hookEvs, List.all_eq_true, Ev.isGit]
  · rw [removeRun, hrw]
    simp only [removeLoop_eq]
    have hloop : ∀ ev ∈ removeStepTraces rw rhub names,
        ev ≠ Ev.git ["worktree", "remove", rname] := by
      intro ev hev
      rw [removeStepTraces] at hev
      rcases List.mem_flatten.1 hev with ⟨l, hl, hevl⟩
      rcases List.mem_map.1 hl with ⟨n, _, rfl⟩
      intro heq
      rw [heq] at hevl
      exact removeStep_no_foreign_git rw rhub rname n e₃ hpre₃ hevl
    cases hemp : (removeFailures rw rhub names).isEmpty
    · simp only [hemp, Bool.false_eq_true, if_false]
      rw [List.all_eq_true]
      intro ev hev
      rcases List.mem_append.1 hev with hev | hev
      · rcases List.mem_append.1 hev with hev | hev
        · simpa using hloop ev hev
        · simp only [List.mem_singleton] at hev
          simp [hev]
      · rcases List.mem_map.1 hev with ⟨p, _, rfl⟩
        simp
    · simp only [hemp, if_true]
      rw [List.all_eq_true]
      intro ev hev
      simpa using hloop ev hev

/-- Fixture hook configuration whose every section has the single failing
pre-hook `boom`. -/
def hooksBoom : HooksConfig :=
  ⟨⟨["boom"], []⟩, ⟨["boom"], []⟩, ⟨["boom"], []⟩⟩

/-- Fixture executor: the hook `boom` fails, everything else succeeds. -/
def execBoom : HookExec :=
  fun _ _ c => if c = "boom" then .error "exit 1" else .ok ()

/-- Fixture create world with the failing pre-hook installed. -/
def cwBoom : CreateWorld :=
  { hubRes := .ok "/r"
  , currentRes := .ok none
  , listRes := .ok []
  , hooks := some hooksBoom
  , exec := execBoom
  , gitRes := fun _ => .ok ""
  , saveRes := .ok () }

/-- Fixture remove world with the failing pre-hook installed. -/
def rwBoom : RemoveWorld :=
  { hubRes := .ok "/r"
  , hooks := some hooksBoom
  , exec := execBoom
  , gitRes := fun _ => .ok "" }

/-- Witness for `c2_pre_hook_abort` at concrete worlds with a failing
pre-hook. -/
theorem c2_pre_hook_abort_witness :
    ((get_command_hooks hooksBoom (createCtx "/r" "feat" none none).command).pre =
        [] ++ "boom" :: [] ∧
      (∀ h ∈ ([] : List String),
        execBoom .pre (createCtx "/r" "feat" none none) h = .ok ()) ∧
      execBoom .pre (createCtx "/r" "feat" none none) "boom" = .error "exit 1" ∧
      cwBoom.hubRes = .ok "/r" ∧
      (if false then cwBoom.currentRes else .ok none) = .ok none ∧
      createBaseSha cwBoom none = .ok none ∧
      run_pre_hooks cwBoom.hooks cwBoom.exec (createCtx "/r" "feat" none none) =
        (["boom"], .error "exit 1") ∧
      rwBoom.hubRes = .ok "/r" ∧
      (run_pre_hooks rwBoom.hooks rwBoom.exec (removeCtx "/r" "a")).2 = .error "exit 1") ∧
    (run_pre_hooks (some hooksBoom) execBoom (createCtx "/r" "feat" none none) =
        ([] ++ ["boom"], .error "exit 1") ∧
      createRun cwBoom "feat" none none false = (hookEvs .pre ["boom"], .error "exit 1") ∧
      (createRun cwBoom "feat" none none false).1.all (fun ev => !ev.isGit) = true ∧
      (removeRun rwBoom ["a", "b"]).1.all
        (fun ev => ev != Ev.git ["worktree", "remove", "a"]) = true) :=
  ⟨⟨rfl, by simp, rfl, rfl, rfl, rfl, rfl, rfl, rfl⟩,
    c2_pre_hook_abort hooksBoom execBoom (createCtx "/r" "feat" none none)
      [] [] "boom" "exit 1" cwBoom "/r" "feat" none none false none none
      ["boom"] "exit 1" rwBoom "/r" "a" "exit 1" ["a", "b"]
      rfl (by simp) rfl rfl rfl rfl rfl rfl rfl⟩

/-! ## C5: post-hook failure is non-fatal -/

theorem runHooksT_congr (e₁ e₂ : HookExec) (ph : Phase) (ctx : HookContext)
    (l : List String) (hag : ∀ h, e₁ ph ctx h = e₂ ph ctx h) :
    runHooksT e₁ ph ctx l = runHooksT e₂ ph ctx l := by
  induction l with
  | nil => rfl
  | cons a l ih =>
    simp only [runHooksT, hag a, ih]

theorem run_pre_hooks_congr (cfg : Option HooksConfig) (e₁ e₂ : HookExec)
    (hag : ∀ c h, e₁ .pre c h = e₂ .pre c h) (ctx : HookContext) :
    run_pre_hooks cfg e₁ ctx = run_pre_hooks cfg e₂ ctx := by
  cases cfg with
  | none => rfl
  | some c =>
    simp only [run_pre_hooks]
    exact runHooksT_congr e₁ e₂ .pre ctx _ (fun h => hag ctx h)

theorem copyLoop_exec (w : SwitchWorld) (e₂ : HookExec) (fs : List String) :
    copyLoop { w with exec := e₂ } fs = copyLoop w fs := by
  induction fs with
  | nil => rfl
  | cons f fs ih =>
    simp only [copyLoop, ih]

theorem sndMatchSave (X Y : Except String Unit) (t1 t2 t3 u1 u2 u3 : List Ev) :
    (match X with
     | Except.error e => (t1, Except.error e)
     | Except.ok _ =>
       match Y with
       | Except.error e => (t2, Except.error e)
       | Except.ok _ => (t3, Except.ok ())).2 =
    (match X with
     | Except.error e => (u1, Except.error e)
     | Except.ok _ =>
       match Y with
       | Except.error e => (u2, Except.error e)
       | Except.ok _ => (u3, Except.ok ())).2 := by
  cases X <;> cases Y <;> rfl

/-- C5: Post-hook failure is non-fatal.  (1) `run_post_hooks` executes the
selected section's `post` list only up to and including the first failing
command and converts the failure into a warning — by construction it
returns no error.  (2) The result of the switch driver does not depend on
the post-phase behavior of the hook executor: two worlds that differ only
in the executor, with equal pre-phase behavior, give equal outcomes. -/
theorem c5_post_hook_nonfatal
    (cfg : HooksConfig) (exec : HookExec) (ctx : HookContext)
    (l₁ l₂ : List String) (f e : String)
    (w₁ w₂ : SwitchWorld) (name : String) (ce : Bool)
    (hsel : (get_command_hooks cfg ctx.command).post = l₁ ++ f :: l₂)
    (hok : ∀ h ∈ l₁, exec .post ctx h = .ok ())
    (hf : exec .post ctx f = .error e)
    (hfe : w₂ = { w₁ with exec := w₂.exec })
    (hagree : ∀ c h, w₁.exec .pre c h = w₂.exec .pre c h) :
    run_post_hooks (some cfg) exec ctx =
        (l₁ ++ [f], some ("Warning: post-hook failed: " ++ e)) ∧
      (switchRun w₁ name ce).2 = (switchRun w₂ name ce).2 := by
  constructor
  · simp only [run_post_hooks, hsel,
      runHooksT_stop exec .post ctx l₁ l₂ f e hok hf]
  · rcases w₁ with ⟨a1, a2, a3, a4, a5, e1, a7, a8, a9, a10, a11, a12⟩
    rcases w₂ with ⟨b1, b2, b3, b4, b5, e2x, b7, b8, b9, b10, b11, b12⟩
    injection hfe with h1 h2 h3 h4 h5 h6 h7 h8 h9 h10 h11 h12
    subst h1; subst h2; subst h3; subst h4; subst h5
    subst h7; subst h8; subst h9; subst h10; subst h11; subst h12
    simp only [switchRun]
    cases b1 with
    | error e3 => rfl
    | ok hub =>
      simp only []
      have hts :
          switchTarget ⟨Except.ok hub, b2, b3, b4, b5, e2x, b7, b8, b9, b10, b11, b12⟩ name =
            switchTarget ⟨Except.ok hub, b2, b3, b4, b5, e1, b7, b8, b9, b10, b11, b12⟩ name :=
        rfl
      rw [hts]
      cases hst :
          switchTarget ⟨Except.ok hub, b2, b3, b4, b5, e1, b7, b8, b9, b10, b11, b12⟩ name with
      | error e3 => rfl
      | ok target =>
        simp only []
        cases b3 with
        | error e3 => rfl
        | ok wts =>
          simp only []
          cases b4 with
          | error e3 => rfl
          | ok current =>
            simp only []
            cases hfind : wts.find? (nameMatches target) with
            | none => rfl
            | some wt =>
              simp only []
              have hp2 : run_pre_hooks b5 e1 ⟨"switch", target, wt.path, hub, none⟩ =
                  run_pre_hooks b5 e2x ⟨"switch", target, wt.path, hub, none⟩ :=
                run_pre_hooks_congr b5 e1 e2x hagree _
              rw [← hp2]
              cases hpr :
                  (run_pre_hooks b5 e1 ⟨"switch", target, wt.path, hub, none⟩).2 with
              | error e3 => rfl
              | ok u =>
                simp only []
                rw [copyLoop_exec
                  ⟨Except.ok hub, b2, Except.ok wts, Except.ok current, b5, e1,
                    b7, b8, b9, b10, b11, b12⟩ e2x b9]
                exact sndMatchSave _ _ _ _ _ _ _ _

/-- Fixture hook configuration with the single failing post-hook `boomp`
in every section. -/
def hooksPostBoom : HooksConfig :=
  ⟨⟨[], ["boomp"]⟩, ⟨[], ["boomp"]⟩, ⟨[], ["boomp"]⟩⟩

/-- Fixture executor failing exactly on the post-hook `boomp`. -/
def execPostBoom : HookExec :=
  fun ph _ c =>
    match ph with
    | .post => if c = "boomp" then .error "exit 2" else .ok ()
    | .pre => .ok ()

/-- Fixture switch world whose hooks all succeed. -/
def swBase : SwitchWorld :=
  { hubRes := .ok "/r"
  , prevRes := .ok none
  , listRes := .ok (parse_worktree_list c8Text)
  , currentRes := .ok none
  , hooks := some hooksPostBoom
  , exec := fun _ _ _ => .ok ()
  , cwdRes := .ok "/r/main"
  , readDirOk := true
  , entries := []
  , entryIsFile := fun _ => false
  , copyRes := fun _ => .ok ()
  , saveRes := .ok () }

/-- The same world with the post-hook made to fail. -/
def swPost : SwitchWorld :=
  { swBase with exec := execPostBoom }

/-- Witness for `c5_post_hook_nonfatal` at a concrete failing post-hook. -/
theorem c5_post_hook_nonfatal_witness :
    ((get_command_hooks hooksPostBoom (removeCtx "/r" "x").command).post =
        [] ++ "boomp" :: [] ∧
      (∀ h ∈ ([] : List String),
        execPostBoom .post (removeCtx "/r" "x") h = .ok ()) ∧
      execPostBoom .post (removeCtx "/r" "x") "boomp" = .error "exit 2" ∧
      swPost = { swBase with exec := swPost.exec } ∧
      (∀ c h, swBase.exec .pre c h = swPost.exec .pre c h)) ∧
    (run_post_hooks (some hooksPostBoom) execPostBoom (removeCtx "/r" "x") =
        ([] ++ ["boomp"], some ("Warning: post-hook failed: " ++ "exit 2")) ∧
      (switchRun swBase "main" false).2 = (switchRun swPost "main" false).2) :=
  ⟨⟨rfl, by simp, rfl, rfl, fun c h => rfl⟩,
    c5_post_hook_nonfatal hooksPostBoom execPostBoom (removeCtx "/r" "x")
      [] [] "boomp" "exit 2" swBase swPost "main" false
      rfl (by simp) rfl rfl (fun c h => rfl)⟩

/-! ## C10: env-file selection during switch -/

/-- C10: Env-file selection.  When every copy succeeds, the copy loop of
the switch driver copies exactly the directory entries whose name starts
with `.env` and is not exactly `.env.example` (and which are files), in
order; `.envrc` and `.environment` qualify, `.env.example` never does. -/
theorem c10_env_file_selection (w : SwitchWorld) (entries : List String)
    (hcopy : ∀ f, w.copyRes f = .ok ()) :
    (copyLoop w entries).1 =
        (entries.filter (fun f =>
          (".env".data.isPrefixOf f.data && f != ".env.example") &&
            w.entryIsFile f)).map Ev.copy ∧
      should_copy_env_file ".envrc" = true ∧
      should_copy_env_file ".environment" = true ∧
      should_copy_env_file ".env.example" = false := by
  refine ⟨?_, by decide, by decide, by decide⟩
  induction entries with
  | nil => rfl
  | cons f fs ih =>
    cases hq : should_copy_env_file f && w.entryIsFile f
    · have hq2 : ((".env".data.isPrefixOf f.data && f != ".env.example") &&
          w.entryIsFile f) = false := hq
      simp only [copyLoop, hq, Bool.false_eq_true, if_false, List.filter_cons, hq2]
      exact ih
    · have hq2 : ((".env".data.isPrefixOf f.data && f != ".env.example") &&
          w.entryIsFile f) = true := hq
      simp only [copyLoop, hq, if_true, List.filter_cons, hq2, hcopy f, List.map_cons]
      rw [ih]

/-- Fixture switch world with a mixed set of directory entries. -/
def swEnv : SwitchWorld :=
  { swBase with
    entries := [".env", ".envrc", ".env.example", "README", ".env.local"]
  , entryIsFile := fun _ => true }

/-- Witness for `c10_env_file_selection` on a concrete entry list. -/
theorem c10_env_file_selection_witness :
    (∀ f, swEnv.copyRes f = .ok ()) ∧
      ((copyLoop swEnv [".env", ".envrc", ".env.example", "README", ".env.local"]).1 =
          ([".env", ".envrc", ".env.example", "README", ".env.local"].filter (fun f =>
            (".env".data.isPrefixOf f.data && f != ".env.example") &&
              swEnv.entryIsFile f)).map Ev.copy ∧
        should_copy_env_file ".envrc" = true ∧
        should_copy_env_file ".environment" = true ∧
        should_copy_env_file ".env.example" = false) :=
  ⟨fun _ => rfl,
    c10_env_file_selection swEnv [".env", ".envrc", ".env.example", "README", ".env.local"]
      (fun _ => rfl)⟩

/-! ## C3: the bare entry and name-matching lookups -/

/-- The per-record probe of `get_current_worktree_name` (`src/git.rs`):
skip the bare entry, canonicalize the record's path (keeping it on
failure), test whether the canonical current directory starts with it
component-wise, and return the record's file name. -/
def currentProbe (canon : String → Option String) (curC : String)
    (wt : Worktree) : Option String :=
  if wt.head == "(bare)" then none
  else
    let wtC := (canon wt.path).getD wt.path
    if (pathComponents wtC).isPrefixOf (pathComponents curC) then fileName wt.path
    else none

/-- Function `get_current_worktree_name` (`src/git.rs`) over an already-obtained
registry snapshot, with canonicalization as an oracle: the name of the
first non-bare record whose canonical path is a component-wise prefix of
the canonical current directory. -/
def get_current_worktree_name (canon : String → Option String)
    (currentDir : String) (wts : List Worktree) : Option String :=
  wts.findSome? (currentProbe canon ((canon currentDir).getD currentDir))

/-- Lines whose parse can set a pending head value to the `(bare)`
sentinel: the `bare` token and a literal `HEAD (bare)` line. -/
def isBareish (l : String) : Bool :=
  match classifyLine l with
  | .bareLine => true
  | .headLine v => v == "(bare)"
  | _ => false

/-- C3 counterexample: on the standard two-record snapshot, the switch
driver's name lookup resolves `.bare` to the bare record (head
`(bare)`), and a full switch run targeting `.bare` succeeds and prints
the bare store's path — the bare record is not excluded from
name-matching lookups. -/
theorem c3_counterexample :
    (parse_worktree_list c8Text).find? (nameMatches ".bare") =
        some ⟨"/r/.bare", "(bare)", none⟩ ∧
      (switchRun swBase ".bare" false).2 = .ok () ∧
      Ev.out "/r/.bare" ∈ (switchRun swBase ".bare" false).1 := by
  refine ⟨by decide, by rfl, by decide⟩

theorem countP_emitOf (s : PState) :
    (emitOf s).countP (fun wt => wt.head == "(bare)") ≤
      (if s.head = some "(bare)" then 1 else 0) := by
  rcases s with ⟨sp, sh, sb⟩
  cases sp with
  | none => simp [emitOf]
  | some pp =>
    cases sh with
    | none => simp [emitOf]
    | some hh =>
      by_cases hv : hh = "(bare)" <;>
        simp [emitOf, List.countP_cons, hv]

theorem countBare_runP (ls : List String) :
    ∀ s : PState,
      (runP s ls).countP (fun wt => wt.head == "(bare)") ≤
        ls.countP isBareish + (if s.head = some "(bare)" then 1 else 0) := by
  induction ls with
  | nil =>
    intro s
    simpa [runP] using countP_emitOf s
  | cons l ls ih =>
    intro s
    cases hcl : classifyLine l with
    | marker p =>
      have hbl : isBareish l = false := by simp [isBareish, hcl]
      have h1 := countP_emitOf s
      have h2 := ih ⟨some p, none, none⟩
      simp only [runP, hcl, List.countP_append, List.countP_cons, hbl] at *
      simp at h2
      omega
    | headLine v =>
      have hbl : isBareish l = (v == "(bare)") := by simp [isBareish, hcl]
      have h2 := ih ⟨s.path, some v, s.branch⟩
      simp only [runP, hcl, List.countP_cons, hbl]
      by_cases hv : v = "(bare)" <;> simp [hv] at h2 ⊢ <;> omega
    | branchLine v =>
      have hbl : isBareish l = false := by simp [isBareish, hcl]
      have h2 := ih ⟨s.path, s.head, some v⟩
      simp only [runP, hcl, List.countP_cons, hbl]
      simp at h2 ⊢
      omega
    | bareLine =>
      have hbl : isBareish l = true := by simp [isBareish, hcl]
      have h2 := ih ⟨s.path, some "(bare)", s.branch⟩
      simp only [runP, hcl, List.countP_cons, hbl]
      simp at h2 ⊢
      omega
    | other =>
      have hbl : isBareish l = false := by simp [isBareish, hcl]
      have h2 := ih s
      simp only [runP, hcl, List.countP_cons, hbl]
      simp
      omega

/-- C3 (amended): when the input has at most one head-setting line that
yields the `(bare)` sentinel, at most one parsed record has head
`(bare)`.  The bare record is excluded from current-worktree detection
(which filters on the `(bare)` head) and from the list display (which
filters on the `.bare` display name); the switch and create `--base`
name lookups perform no such exclusion (see the counterexample). -/
theorem c3_bare_entry (ls : List String) (canon : String → Option String)
    (cur : String) (wts wts2 : List Worktree)
    (hcount : ls.countP isBareish ≤ 1) :
    (parseLines ls).countP (fun wt => wt.head == "(bare)") ≤ 1 ∧
      get_current_worktree_name canon cur wts =
        get_current_worktree_name canon cur
          (wts.filter (fun wt => wt.head != "(bare)")) ∧
      listLines wts2 = listLines (wts2.filter (fun wt => displayName wt != ".bare")) := by
  refine ⟨?_, ?_, ?_⟩
  · have h1 := countBare_runP ls ⟨none, none, none⟩
    rw [parseLines_eq_runP]
    simp at h1
    omega
  · unfold get_current_worktree_name
    induction wts with
    | nil => rfl
    | cons wt rest ih =>
      cases hb : wt.head == "(bare)"
      · have hb2 : (wt.head != "(bare)") = true := by simp [bne, hb]
        have hp : ∀ c, currentProbe canon c wt =
            (let wtC := (canon wt.path).getD wt.path
             if (pathComponents wtC).isPrefixOf (pathComponents c) then fileName wt.path
             else none) := by
          intro c
          simp [currentProbe, hb]
        simp only [List.filter_cons, hb2, if_true, List.findSome?_cons]
        cases hpr : currentProbe canon ((canon cur).getD cur) wt with
        | none => exact ih
        | some n => rfl
      · have hb2 : (wt.head != "(bare)") = false := by simp [bne, hb]
        have hp : currentProbe canon ((canon cur).getD cur) wt = none := by
          simp [currentProbe, hb]
        simp only [List.filter_cons, hb2, Bool.false_eq_true, if_false,
          List.findSome?_cons, hp]
        exact ih
  · induction wts2 with
    | nil => rfl
    | cons wt rest ih =>
      by_cases hd : displayName wt = ".bare"
      · have hd2 : (displayName wt != ".bare") = false := by simp [bne, hd]
        simp only [listLines, List.filterMap_cons, List.filter_cons, hd2,
          Bool.false_eq_true, if_false, hd, if_pos]
        exact ih
      · have hd2 : (displayName wt != ".bare") = true := by simp [bne, hd]
        simp only [listLines, List.filterMap_cons, List.filter_cons, hd2, if_true,
          if_neg hd]
        rw [listLines] at ih
        rw [ih]
        rfl

/-- Witness for `c3_bare_entry` on the standard snapshot. -/
theorem c3_bare_entry_witness :
    (rustLines c8Text).countP isBareish ≤ 1 ∧
      ((parseLines (rustLines c8Text)).countP (fun wt => wt.head == "(bare)") ≤ 1 ∧
        get_current_worktree_name (fun _ => none) "/r/main" (parse_worktree_list c8Text) =
          get_current_worktree_name (fun _ => none) "/r/main"
            ((parse_worktree_list c8Text).filter (fun wt => wt.head != "(bare)")) ∧
        listLines (parse_worktree_list c8Text) =
          listLines ((parse_worktree_list c8Text).filter
            (fun wt => displayName wt != ".bare"))) :=
  ⟨by decide,
    c3_bare_entry (rustLines c8Text) (fun _ => none) "/r/main"
      (parse_worktree_list c8Text) (parse_worktree_list c8Text) (by decide)⟩

/-! ## C6: hub-root resolution (`src/git.rs::find_hub_root`)

Paths are component lists from the file-system root (`[]` is the root).
The file system enters as an oracle structure; `canonicalize` may fail,
in which case the source keeps the uncanonicalized path. -/

/-- File-system oracle for the hub-root search. -/
structure HubFS where
  isDir : List String → Bool
  isFile : List String → Bool
  content : List String → String
  canon : List String → Option (List String)

/-- Model of `Path::exists`: the path is a directory or a regular file. -/
def hubExists (fs : HubFS) (p : List String) : Bool :=
  fs.isDir p || fs.isFile p

/-- Model of `content.strip_prefix("gitdir: ")`. -/
def stripGitdirTag : List Char → Option (List Char)
  | 'g' :: 'i' :: 't' :: 'd' :: 'i' :: 'r' :: ':' :: ' ' :: rest => some rest
  | _ => none

/-- One iteration of the `find_hub_root` loop body at directory `dir`:
first the `.bare`-subdirectory check, then the `.git`-file check with the
`gitdir:` pointer resolution; the candidate parent is canonicalized
(kept on failure) and accepted when a `.bare` entry merely exists there
(`exists()`, not `is_dir()`). -/
def checkHubDir (fs : HubFS) (dir : List String) : Option (List String) :=
  if hubExists fs (dir ++ [".bare"]) && fs.isDir (dir ++ [".bare"]) then some dir
  else if hubExists fs (dir ++ [".git"]) && fs.isFile (dir ++ [".git"]) then
    match stripGitdirTag (fs.content (dir ++ [".git"])).data with
    | some rest =>
      let g := trimChars rest
      let gp : List String :=
        if g.head? = some '/' then pathComponents ⟨g⟩
        else dir ++ pathComponents ⟨g⟩
      if gp.isEmpty then none
      else
        let hr := (fs.canon gp.dropLast).getD gp.dropLast
        if hubExists fs (hr ++ [".bare"]) then some hr else none
    | none => none
  else none

/-- The ancestor walk of `find_hub_root`, over the reversed component
list (deepest component first, so moving to the parent is `tail`). -/
def hubLoopRev (fs : HubFS) : List String → Option (List String)
  | [] => checkHubDir fs []
  | c :: rest =>
    match checkHubDir fs ((c :: rest).reverse) with
    | some r => some r
    | none => hubLoopRev fs rest

/-- Function `find_hub_root` from `src/git.rs`, with the starting directory as an
explicit parameter: walk from `cwd` up to the root, failing with the
`NotAWorktreeRepo` message when no ancestor matches. -/
def find_hub_root (fs : HubFS) (cwd : List String) : Except String (List String) :=
  match hubLoopRev fs cwd.reverse with
  | some r => .ok r
  | none => .error "Not inside a wtree repository (cannot find .bare directory)"

/-- The ancestors of a directory, itself included, down to the root — the
order in which the spec's search visits directories. -/
def specAncestors (dir : List String) : List (List String) :=
  (List.range (dir.length + 1)).map (fun k => dir.take (dir.length - k))

/-- Per-directory check exactly as the claim words it: the candidate
parent is accepted only if it contains a `.bare` subdirectory (a
directory, not merely an existing entry). -/
def specCheckStrict (fs : HubFS) (dir : List String) : Option (List String) :=
  if fs.isDir (dir ++ [".bare"]) then some dir
  else if fs.isFile (dir ++ [".git"]) then
    match stripGitdirTag (fs.content (dir ++ [".git"])).data with
    | some rest =>
      let g := trimChars rest
      let gp : List String :=
        if g.head? = some '/' then pathComponents ⟨g⟩
        else dir ++ pathComponents ⟨g⟩
      if gp.isEmpty then none
      else
        let hr := (fs.canon gp.dropLast).getD gp.dropLast
        if fs.isDir (hr ++ [".bare"]) then some hr else none
    | none => none
  else none

/-- Per-directory check as amended: the candidate parent is accepted when
a `.bare` entry exists there, file or directory. -/
def specCheckAmended (fs : HubFS) (dir : List String) : Option (List String) :=
  if fs.isDir (dir ++ [".bare"]) then some dir
  else if fs.isFile (dir ++ [".git"]) then
    match stripGitdirTag (fs.content (dir ++ [".git"])).data with
    | some rest =>
      let g := trimChars rest
      let gp : List String :=
        if g.head? = some '/' then pathComponents ⟨g⟩
        else dir ++ pathComponents ⟨g⟩
      if gp.isEmpty then none
      else
        let hr := (fs.canon gp.dropLast).getD gp.dropLast
        if hubExists fs (hr ++ [".bare"]) then some hr else none
    | none => none
  else none

/-- The claim's search algorithm, literally: first matching ancestor, or
the `NotAWorktreeRepo` failure. -/
def specFindStrict (fs : HubFS) (cwd : List String) : Except String (List String) :=
  match (specAncestors cwd).findSome? (specCheckStrict fs) with
  | some r => .ok r
  | none => .error "Not inside a wtree repository (cannot find .bare directory)"

/-- The amended search algorithm. -/
def specFindAmended (fs : HubFS) (cwd : List String) : Except String (List String) :=
  match (specAncestors cwd).findSome? (specCheckAmended fs) with
  | some r => .ok r
  | none => .error "Not inside a wtree repository (cannot find .bare directory)"

theorem checkHubDir_eq_amended (fs : HubFS) (dir : List String) :
    checkHubDir fs dir = specCheckAmended fs dir := by
  cases h1 : fs.isDir (dir ++ [".bare"]) <;>
    cases h2 : fs.isFile (dir ++ [".git"]) <;>
      simp [checkHubDir, specCheckAmended, hubExists, h1, h2]

theorem specAncestorsStep (l : List String) (c : String) :
    specAncestors (l ++ [c]) = (l ++ [c]) :: specAncestors l := by
  unfold specAncestors
  rw [List.length_append]
  simp only [List.length_singleton]
  rw [List.range_succ_eq_map]
  simp only [List.map_cons, List.map_map, Nat.sub_zero]
  congr 1
  · have hlen : l.length + 1 = (l ++ [c]).length := by simp
    rw [hlen, List.take_length]
  · apply List.map_congr_left
    intro k hk
    rw [List.mem_range] at hk
    have hk1 : l.length + 1 - (k + 1) = l.length - k := by omega
    have hk2 : l.length - k ≤ l.length := Nat.sub_le _ _
    simp only [Function.comp_apply]
    rw [hk1, List.take_append_of_le_length hk2]

theorem hubLoopRev_eq (fs : HubFS) (rev : List String) :
    hubLoopRev fs rev = (specAncestors rev.reverse).findSome? (checkHubDir fs) := by
  induction rev with
  | nil =>
    have h0 : specAncestors ([] : List String).reverse = [[]] := rfl
    rw [h0]
    cases hc : checkHubDir fs [] <;> simp [hubLoopRev, List.findSome?, hc]
  | cons c rest ih =>
    have hrev : (c :: rest).reverse = rest.reverse ++ [c] := by
      simp [List.reverse_cons]
    rw [hubLoopRev, hrev, specAncestorsStep, List.findSome?_cons]
    cases hc : checkHubDir fs (rest.reverse ++ [c]) <;> simp [hc, ih]

/-- C6 (amended): `find_hub_root` checks, from the starting directory up
to the file-system root, each ancestor first for a `.bare` subdirectory
and then for a `.git` regular file with a `gitdir: <path>` pointer whose
resolved parent — canonicalized when possible — is accepted when a
`.bare` entry exists there (file or directory); it returns the first
match, or the `NotAWorktreeRepo` error when no ancestor matches. -/
theorem c6_hub_root_resolution (fs : HubFS) (cwd : List String) :
    find_hub_root fs cwd = specFindAmended fs cwd := by
  rw [find_hub_root, specFindAmended, hubLoopRev_eq, List.reverse_reverse]
  have hch : checkHubDir fs = specCheckAmended fs :=
    funext (checkHubDir_eq_amended fs)
  rw [hch]

/-- Counterexample file system: `/w/.git` is a regular file pointing to
`/h/.bare`, and `/h/.bare` exists but as a regular file, not a
directory. -/
def hubFs0 : HubFS :=
  { isDir := fun _ => false
  , isFile := fun p => p == ["w", ".git"] || p == ["h", ".bare"]
  , content := fun p => if p == ["w", ".git"] then "gitdir: /h/.bare" else ""
  , canon := fun _ => none }

/-- C6 counterexample: where `.bare` at the candidate hub root is a
regular file, the code accepts `/h` as hub root while the claim's
algorithm (requiring a `.bare` subdirectory at the candidate) fails with
`NotAWorktreeRepo`. -/
theorem c6_counterexample :
    find_hub_root hubFs0 ["w"] = .ok ["h"] ∧
      specFindStrict hubFs0 ["w"] =
        .error "Not inside a wtree repository (cannot find .bare directory)" :=
  ⟨rfl, rfl⟩
